import Mathlib

/-!
Verification of emmcdl's `inc/sysdeps.h`: a shallow embedding of the header
and the properties proved of it.

The header has two mutually exclusive halves, selected by `_WIN32`.  Both are
embedded here: the Windows half lives in `Win32`, the Unix half in `Posix`,
and what the two share (the `TEMP_FAILURE_RETRY` statement expression, the
model of the operating system, the C library functions) lives in `Sysdeps`.

Conventions of the embedding.

* C integer values are mathematical integers (`Int`).  No arithmetic is done
  on them by the header, only comparisons and bit tests.  Where the header
  converts a wider integer to `int` (the `ssize_t` of `read` and `write`
  returned from a function declared `int`), the conversion is written out as
  reduction modulo 2^32 into the range of a 32-bit `int`.
* A C string is the list of the `char`s stored before the terminating NUL; the
  terminator itself sits at index `length`, and any index beyond it is outside
  the object.  A list that already holds a NUL denotes a C string that ends at
  that first NUL.
* A `char*` result pointing into the argument string is the index it points
  at; the null pointer is `none`.
* The operating system is a script: the n-th library call that the program
  makes receives the n-th scripted outcome (return value, `errno` after the
  call, and for `socketpair` the contents of the two-element array after the
  call).  Every call is appended to a trace together with its arguments.
-/

namespace Sysdeps

/-- Values of the constants that the system headers supply to `sysdeps.h`.
They differ between platforms, so every definition takes them as a
parameter. -/
structure Consts where
  EINTR : Int
  EACCES : Int
  O_CREAT : Int
  F_SETFD : Int
  FD_CLOEXEC : Int
  AF_UNIX : Int
  SOCK_STREAM : Int
  S_IREAD : Int
  S_IWRITE : Int

/-- A C string: the characters stored before the terminating NUL. -/
abbrev CStr := List Char

/-- The NUL character that terminates a C string. -/
def NUL : Char := Char.ofNat 0

/-- What the program does that is visible from outside: the library calls of
the header, each with its arguments, and the evaluation of `va_arg`. -/
inductive Event where
  | open2 (path : CStr) (options : Int)
  | open3 (path : CStr) (options : Int) (mode : Int)
  | creat (path : CStr) (mode : Int)
  | read (fd : Int) (buf : Nat) (len : Nat)
  | write (fd : Int) (buf : Nat) (len : Nat)
  | accept (serverfd : Int) (addr : Nat) (addrlen : Nat)
  | socketpair (d : Int) (ty : Int) (protocol : Int)
  | fcntl (fd : Int) (cmd : Int) (arg : Int)
  | unlink (path : CStr)
  | chmod (path : CStr) (mode : Int)
  | va_arg (value : Int)
  deriving DecidableEq, Repr

/-- The outcome of one library call: its return value, the value of `errno`
once it has returned, and (used by `socketpair` only) the contents of the
array `sv` once it has returned. -/
structure Outcome where
  rc : Int
  errno : Int
  sv : Int × Int
  deriving DecidableEq, Repr

/-- The state threaded through the header's functions. -/
structure World where
  /-- the outcome that the n-th scripted call will receive -/
  script : Nat → Outcome
  /-- how many scripted calls have been made -/
  next : Nat
  /-- every event so far, oldest first -/
  trace : List Event
  /-- the current value of `errno` -/
  errno : Int
  /-- the descriptors whose close-on-exec flag has been set, oldest first -/
  cloexec : List Int

/-- How the evaluation of a function body ends. -/
inductive Run (α : Type) where
  /-- the function returned this value -/
  | done (a : α)
  /-- the loop bound of the model was reached while the loop was still
  running -/
  | spin
  /-- the body evaluated something the C standard leaves undefined -/
  | undef
  deriving DecidableEq

/-- One scripted library call: take the next outcome, record the call, store
the new `errno`. -/
def World.call (w : World) (e : Event) : Outcome × World :=
  (w.script w.next,
   { w with next := w.next + 1, trace := w.trace ++ [e],
            errno := (w.script w.next).errno })

/-- A library call used as a C expression of type `int`: its value is the
return value of the call. -/
def sys (e : Event) (w : World) : Int × World :=
  ((w.call e).1.rc, (w.call e).2)

/-- Conversion of an integer value to a 32-bit `int`: the value congruent to
`x` modulo 2^32 that lies in -2^31 .. 2^31 - 1.  It is what `return` does with
an `ssize_t` expression in a function whose result type is `int`. -/
def narrowInt (x : Int) : Int :=
  (x + 2147483648) % 4294967296 - 2147483648

/-- An outcome that makes `TEMP_FAILURE_RETRY` loop: the expression
`_rc == -1 && errno == EINTR`. -/
def interrupted (P : Consts) (o : Outcome) : Prop :=
  o.rc = -1 ∧ o.errno = P.EINTR

instance (P : Consts) (o : Outcome) : Decidable (interrupted P o) := by
  unfold interrupted
  exact inferInstance

/-- The statement expression
`({ typeof (exp) _rc; do { _rc = (exp); } while (_rc == -1 && errno == EINTR); _rc; })`
of lines 34-39.  The do-while loop has no bound in C; here it runs for at most
`fuel` evaluations of `exp`. -/
def TEMP_FAILURE_RETRY (P : Consts) (exp : World → Int × World) :
    Nat → World → Run (Int × World)
  | 0, _ => Run.spin
  | fuel + 1, w =>
    let r := exp w
    if r.1 = -1 ∧ r.2.errno = P.EINTR then TEMP_FAILURE_RETRY P exp fuel r.2
    else Run.done r

end Sysdeps

namespace Posix
open Sysdeps

/-- Lines 317-320: `fcntl( fd, F_SETFD, FD_CLOEXEC )`, result discarded.  The
call is recorded in the trace and the flag of `fd` is set; it takes no
scripted outcome and leaves `errno` alone. -/
def close_on_exec (P : Consts) (fd : Int) (w : World) : World :=
  { w with trace := w.trace ++ [Event.fcntl fd P.F_SETFD P.FD_CLOEXEC],
           cloexec := w.cloexec ++ [fd] }

/-- Lines 322-337.  The trailing arguments are `va`: `none` when the caller
passed nothing after `options`. -/
def unix_open (P : Consts) (fuel : Nat) (path : CStr) (options : Int)
    (va : Option Int) (w : World) : Run (Int × World) :=
  if Int.land options P.O_CREAT = 0 then
    TEMP_FAILURE_RETRY P (sys (Event.open2 path options)) fuel w
  else
    match va with
    | none => Run.undef
    | some mode =>
      TEMP_FAILURE_RETRY P (sys (Event.open3 path options mode)) fuel
        { w with trace := w.trace ++ [Event.va_arg mode] }

/-- Lines 339-342. -/
def emmcdl_open_mode (P : Consts) (fuel : Nat) (pathname : CStr) (options : Int)
    (mode : Int) (w : World) : Run (Int × World) :=
  TEMP_FAILURE_RETRY P (sys (Event.open3 pathname options mode)) fuel w

/-- Lines 345-352. -/
def emmcdl_open (P : Consts) (fuel : Nat) (pathname : CStr) (options : Int)
    (w : World) : Run (Int × World) :=
  match TEMP_FAILURE_RETRY P (sys (Event.open2 pathname options)) fuel w with
  | Run.done (fd, w1) =>
    if fd < 0 then Run.done (-1, w1)
    else Run.done (fd, close_on_exec P fd w1)
  | Run.spin => Run.spin
  | Run.undef => Run.undef

/-- Lines 371-374.  `_rc` has the type of `read(...)`, `ssize_t`, and the loop
tests that value; the function is declared `int`, so the value of the
statement expression is converted to `int` on return. -/
def emmcdl_read (P : Consts) (fuel : Nat) (fd : Int) (buf : Nat) (len : Nat)
    (w : World) : Run (Int × World) :=
  match TEMP_FAILURE_RETRY P (sys (Event.read fd buf len)) fuel w with
  | Run.done (rc, w1) => Run.done (narrowInt rc, w1)
  | Run.spin => Run.spin
  | Run.undef => Run.undef

/-- Lines 379-382.  As for `emmcdl_read`: the loop runs on the `ssize_t` of
`write(...)` and the result is converted to `int` on return. -/
def emmcdl_write (P : Consts) (fuel : Nat) (fd : Int) (buf : Nat) (len : Nat)
    (w : World) : Run (Int × World) :=
  match TEMP_FAILURE_RETRY P (sys (Event.write fd buf len)) fuel w with
  | Run.done (rc, w1) => Run.done (narrowInt rc, w1)
  | Run.spin => Run.spin
  | Run.undef => Run.undef

/-- Lines 400-409. -/
def emmcdl_creat (P : Consts) (fuel : Nat) (path : CStr) (mode : Int)
    (w : World) : Run (Int × World) :=
  match TEMP_FAILURE_RETRY P (sys (Event.creat path mode)) fuel w with
  | Run.done (fd, w1) =>
    if fd < 0 then Run.done (-1, w1)
    else Run.done (fd, close_on_exec P fd w1)
  | Run.spin => Run.spin
  | Run.undef => Run.undef

/-- Lines 413-422. -/
def emmcdl_socket_accept (P : Consts) (fuel : Nat) (serverfd : Int) (addr : Nat)
    (addrlen : Nat) (w : World) : Run (Int × World) :=
  match TEMP_FAILURE_RETRY P (sys (Event.accept serverfd addr addrlen)) fuel w with
  | Run.done (fd, w1) =>
    if fd ≥ 0 then Run.done (fd, close_on_exec P fd w1)
    else Run.done (fd, w1)
  | Run.spin => Run.spin
  | Run.undef => Run.undef

/-- Lines 463-466.  Returns the return value of `socketpair` and the contents
of `sv` after the call. -/
def unix_socketpair (d : Int) (ty : Int) (protocol : Int) (w : World) :
    (Int × (Int × Int)) × World :=
  (((w.call (Event.socketpair d ty protocol)).1.rc,
    (w.call (Event.socketpair d ty protocol)).1.sv),
   (w.call (Event.socketpair d ty protocol)).2)

/-- Lines 468-479.  Returns the return value and the contents of the caller's
array `sv` on return. -/
def emmcdl_socketpair (P : Consts) (w : World) : (Int × (Int × Int)) × World :=
  let r := unix_socketpair P.AF_UNIX P.SOCK_STREAM 0 w
  if r.1.1 < 0 then ((-1, r.1.2), r.2)
  else ((0, r.1.2), close_on_exec P r.1.2.2 (close_on_exec P r.1.2.1 r.2))

end Posix

namespace Sysdeps

/-- C `strlen`: the index of the first NUL. -/
def strlen : CStr → Nat
  | [] => 0
  | c :: cs => if c = NUL then 0 else strlen cs + 1

/-- The read `path[i]`.  Index `length` holds the terminator; `none` is a read
outside the object. -/
def charAt (path : CStr) (i : Nat) : Option Char :=
  (path ++ [NUL])[i]?

/-- C `strchr(s, c)`: scan from the start, stop at the first `c` (the
terminator counts as a character of the string) or at the terminator. -/
def strchr : CStr → Char → Option Nat
  | [], c => if c = NUL then some 0 else none
  | x :: xs, c =>
    if x = c then some 0
    else if x = NUL then none
    else (strchr xs c).map (fun i => i + 1)

/-- The loop of C `strrchr`: `i` is the index of the head of the remaining
characters, `last` the last match seen so far. -/
def strrchrFrom (c : Char) : CStr → Nat → Option Nat → Option Nat
  | [], i, last => if c = NUL then some i else last
  | x :: xs, i, last =>
    if x = NUL then (if c = NUL then some i else last)
    else strrchrFrom c xs (i + 1) (if x = c then some i else last)

/-- C `strrchr(s, c)`: the last `c` before or at the terminator. -/
def strrchr (s : CStr) (c : Char) : Option Nat :=
  strrchrFrom c s 0 none

/-- C `isalpha` in the "C" locale: non-zero exactly on `A`-`Z` and `a`-`z`.
The standard fixes only that the value is non-zero for a letter; callers test
it against zero. -/
def isalpha (c : Char) : Int :=
  if ('A' ≤ c ∧ c ≤ 'Z') ∨ ('a' ≤ c ∧ c ≤ 'z') then 1 else 0

/-- A letter, as the claims about host paths word it: `A`-`Z` or `a`-`z`. -/
def isLetter (c : Char) : Prop :=
  ('A' ≤ c ∧ c ≤ 'Z') ∨ ('a' ≤ c ∧ c ≤ 'z')

instance (c : Char) : Decidable (isLetter c) := by
  unfold isLetter
  exact inferInstance

/-- A path separator of the Windows half: `/` or `\`. -/
def isSep (c : Char) : Prop := c = '/' ∨ c = '\\'

instance (c : Char) : Decidable (isSep c) := by
  unfold isSep
  exact inferInstance

end Sysdeps

namespace Win32
open Sysdeps

/-- Lines 96-99: the body is empty. -/
def close_on_exec (_fd : Int) (w : World) : World := w

/-- Lines 105-117. -/
def emmcdl_unlink (P : Consts) (path : CStr) (w : World) : Int × World :=
  let r := sys (Event.unlink path) w
  if r.1 = -1 ∧ r.2.errno = P.EACCES then
    let r2 := sys (Event.chmod path (Int.lor P.S_IREAD P.S_IWRITE)) r.2
    if r2.1 = 0 then sys (Event.unlink path) r2.2
    else r2
  else r

/-- Lines 160-175.  The trailing arguments are `va`: `none` when the caller
passed nothing after `options`. -/
def unix_open (P : Consts) (path : CStr) (options : Int) (va : Option Int)
    (w : World) : Run (Int × World) :=
  if Int.land options P.O_CREAT = 0 then
    Run.done (sys (Event.open2 path options) w)
  else
    match va with
    | none => Run.undef
    | some mode =>
      Run.done (sys (Event.open3 path options mode)
        { w with trace := w.trace ++ [Event.va_arg mode] })

/-- Lines 237-248.  Comparing two pointers into `path` compares their
indices. -/
def emmcdl_dirstart (path : CStr) : Option Nat :=
  let p := strchr path '/'
  let p2 := strchr path '\\'
  match p with
  | none => p2
  | some i =>
    match p2 with
    | some j => if j > i then some j else some i
    | none => some i

/-- Lines 250-261. -/
def emmcdl_dirstop (path : CStr) : Option Nat :=
  let p := strrchr path '/'
  let p2 := strrchr path '\\'
  match p with
  | none => p2
  | some i =>
    match p2 with
    | some j => if j > i then some j else some i
    | none => some i

/-- Lines 263-266: `isalpha(path[0]) && path[1] == ':' && path[2] == '\\'`,
with the left-to-right short circuit of `&&`.  Returns the value of the
expression and the indices of `path` that were read, in order. -/
def emmcdl_is_absolute_host_path (path : CStr) : Run (Int × List Nat) :=
  match charAt path 0 with
  | none => Run.undef
  | some c0 =>
    if isalpha c0 = 0 then Run.done (0, [0])
    else
      match charAt path 1 with
      | none => Run.undef
      | some c1 =>
        if c1 ≠ ':' then Run.done (0, [0, 1])
        else
          match charAt path 2 with
          | none => Run.undef
          | some c2 => Run.done (if c2 = '\\' then 1 else 0, [0, 1, 2])

end Win32

namespace Posix
open Sysdeps

/-- Lines 500-503. -/
def emmcdl_dirstart (path : CStr) : Option Nat :=
  strchr path '/'

/-- Lines 505-508. -/
def emmcdl_dirstop (path : CStr) : Option Nat :=
  strrchr path '/'

/-- Lines 510-513: `path[0] == '/'`.  Returns the value of the expression and
the indices of `path` that were read. -/
def emmcdl_is_absolute_host_path (path : CStr) : Run (Int × List Nat) :=
  match charAt path 0 with
  | none => Run.undef
  | some c0 => Run.done (if c0 = '/' then 1 else 0, [0])

end Posix

namespace Sysdeps

/-- The run `r` made exactly `k + 1` scripted calls from `w`, every one of them
the event `e`, then applied `close_on_exec` to the descriptors `fds` in order,
and returned `v`: nothing else was traced, `errno` is what the last call
left, and the flags set are those of `fds`. -/
def ReturnsAfter (P : Consts) (w : World) (k : Nat) (e : Event) (v : Int)
    (fds : List Int) (r : Run (Int × World)) : Prop :=
  ∃ w1 : World, r = Run.done (v, w1) ∧ w1.script = w.script ∧
    w1.next = w.next + (k + 1) ∧
    w1.trace = w.trace ++ List.replicate (k + 1) e ++
      fds.map (fun fd => Event.fcntl fd P.F_SETFD P.FD_CLOEXEC) ∧
    w1.errno = (w.script (w.next + k)).errno ∧
    w1.cloexec = w.cloexec ++ fds

/-- Header constants of a Linux build. -/
def linux : Consts :=
  { EINTR := 4, EACCES := 13, O_CREAT := 64, F_SETFD := 2, FD_CLOEXEC := 1,
    AF_UNIX := 1, SOCK_STREAM := 1, S_IREAD := 256, S_IWRITE := 128 }

/-- Header constants of a Windows (MSVC runtime) build; the entries that only
the Unix half uses are zero. -/
def msvc : Consts :=
  { EINTR := 4, EACCES := 13, O_CREAT := 256, F_SETFD := 0, FD_CLOEXEC := 0,
    AF_UNIX := 0, SOCK_STREAM := 0, S_IREAD := 256, S_IWRITE := 128 }

/-- A fresh world running the script `f`. -/
def World.start (f : Nat → Outcome) : World :=
  { script := f, next := 0, trace := [], errno := 0, cloexec := [] }

/-- A script: two calls interrupted by a signal, then every call returns 7
and leaves `errno` at 0. -/
def twiceInterrupted (n : Nat) : Outcome :=
  if n < 2 then ⟨-1, 4, (0, 0)⟩ else ⟨7, 0, (0, 0)⟩

/-- A script on which every call returns descriptor 3 and leaves `errno` at
0. -/
def alwaysThree (_n : Nat) : Outcome := ⟨3, 0, (0, 0)⟩

/-- The world reached from `World.start twiceInterrupted` by three calls of
`open("f", 0)` followed by `close_on_exec(7)` on a Linux build. -/
def openedSeven : World :=
  { script := twiceInterrupted, next := 3,
    trace := [Event.open2 ['f'] 0, Event.open2 ['f'] 0, Event.open2 ['f'] 0,
              Event.fcntl 7 2 1],
    errno := 0, cloexec := [7] }

/-- The world reached from `World.start alwaysThree` by one call of
`open("f", 0)` and nothing else. -/
def openedThree : World :=
  { script := alwaysThree, next := 1, trace := [Event.open2 ['f'] 0],
    errno := 0, cloexec := [] }

/-- The world reached from `World.start alwaysThree` by one call of
`open("f", 64, 420)` and nothing else. -/
def createdThree : World :=
  { script := alwaysThree, next := 1, trace := [Event.open3 ['f'] 64 420],
    errno := 0, cloexec := [] }

/-- A script on which every call returns 4294967301 (2^32 + 5) and leaves
`errno` at 0: a `read` of more than 2^32 bytes on a platform whose `ssize_t`
has 64 bits. -/
def hugeTransfer (_n : Nat) : Outcome := ⟨4294967301, 0, (0, 0)⟩

/-- The world reached from `World.start hugeTransfer` by one call of
`read(5, buf, 4294967301)`. -/
def readHuge : World :=
  { script := hugeTransfer, next := 1, trace := [Event.read 5 0 4294967301],
    errno := 0, cloexec := [] }

/-- A script on which every call returns -5 and leaves `errno` at 0. -/
def alwaysMinusFive (_n : Nat) : Outcome := ⟨-5, 0, (0, 0)⟩

/-- The world reached from `World.start alwaysMinusFive` by one call of
`open("f", 0)` and nothing else. -/
def openedMinusFive : World :=
  { script := alwaysMinusFive, next := 1, trace := [Event.open2 ['f'] 0],
    errno := 0, cloexec := [] }

/-- A script for a read-only file on Windows: the first `unlink` fails with
`EACCES` (13), the `chmod` and the second `unlink` return 0. -/
def readOnlyFile (n : Nat) : Outcome :=
  if n = 0 then ⟨-1, 13, (0, 0)⟩ else ⟨0, 0, (0, 0)⟩

/-- The character `c` is stored at index `i` of the C string `path`, before
its terminator. -/
def hasAt (path : CStr) (i : Nat) (c : Char) : Prop :=
  i < strlen path ∧ path[i]? = some c

instance (path : CStr) (i : Nat) (c : Char) : Decidable (hasAt path i c) := by
  unfold hasAt
  exact inferInstance

/-- Two characters that `strchr(_, '/')` and `strrchr(_, '/')` cannot tell
apart: both are `/` or neither is, and both are NUL or neither is. -/
def sameForSlash (a b : Char) : Prop :=
  (a = '/' ↔ b = '/') ∧ (a = NUL ↔ b = NUL)

/-! ## The retry loop -/

theorem retry_run (P : Consts) (e : Event) :
    ∀ (k fuel : Nat) (w : World),
      (∀ i, i < k → interrupted P (w.script (w.next + i))) →
      ¬ interrupted P (w.script (w.next + k)) → k < fuel →
      TEMP_FAILURE_RETRY P (sys e) fuel w =
        Run.done ((w.script (w.next + k)).rc,
          { script := w.script, next := w.next + (k + 1),
            trace := w.trace ++ List.replicate (k + 1) e,
            errno := (w.script (w.next + k)).errno, cloexec := w.cloexec }) := by
  intro k
  induction k with
  | zero =>
    intro fuel w _ hend hfuel
    obtain ⟨f, rfl⟩ : ∃ f, fuel = f + 1 := ⟨fuel - 1, by omega⟩
    have hend' : ¬ ((w.script w.next).rc = -1 ∧ (w.script w.next).errno = P.EINTR) := by
      simpa [interrupted] using hend
    simp [TEMP_FAILURE_RETRY, sys, World.call, hend']
  | succ k ih =>
    intro fuel w hint hend hfuel
    obtain ⟨f, rfl⟩ : ∃ f, fuel = f + 1 := ⟨fuel - 1, by omega⟩
    have h0 : (w.script w.next).rc = -1 ∧ (w.script w.next).errno = P.EINTR := by
      simpa [interrupted] using hint 0 (by omega)
    have hstep : TEMP_FAILURE_RETRY P (sys e) (f + 1) w =
        TEMP_FAILURE_RETRY P (sys e) f (w.call e).2 := by
      simp [TEMP_FAILURE_RETRY, sys, World.call, h0]
    rw [hstep]
    have hint' : ∀ i, i < k →
        interrupted P ((w.call e).2.script ((w.call e).2.next + i)) := by
      intro i hi
      have := hint (i + 1) (by omega)
      simpa [World.call, Nat.add_assoc, Nat.add_comm 1 i] using this
    have hend'' : ¬ interrupted P ((w.call e).2.script ((w.call e).2.next + k)) := by
      simpa [World.call, Nat.add_assoc, Nat.add_comm 1 k] using hend
    rw [ih f (w.call e).2 hint' hend'' (by omega)]
    simp [World.call, Nat.add_assoc, Nat.add_comm 1 k, List.replicate_succ]
    omega

theorem retry_spin (P : Consts) (e : Event) :
    ∀ (fuel : Nat) (w : World),
      (∀ i, i < fuel → interrupted P (w.script (w.next + i))) →
      TEMP_FAILURE_RETRY P (sys e) fuel w = Run.spin := by
  intro fuel
  induction fuel with
  | zero => intro w _; rfl
  | succ f ih =>
    intro w hint
    have h0 : (w.script w.next).rc = -1 ∧ (w.script w.next).errno = P.EINTR := by
      simpa [interrupted] using hint 0 (by omega)
    have hstep : TEMP_FAILURE_RETRY P (sys e) (f + 1) w =
        TEMP_FAILURE_RETRY P (sys e) f (w.call e).2 := by
      simp [TEMP_FAILURE_RETRY, sys, World.call, h0]
    rw [hstep]
    apply ih
    intro i hi
    have := hint (i + 1) (by omega)
    simpa [World.call, Nat.add_assoc, Nat.add_comm 1 i] using this

theorem returnsAfter_plain (P : Consts) (e : Event) (k fuel : Nat) (w : World)
    (hint : ∀ i, i < k → interrupted P (w.script (w.next + i)))
    (hend : ¬ interrupted P (w.script (w.next + k))) (hfuel : k < fuel) :
    ReturnsAfter P w k e (w.script (w.next + k)).rc []
      (TEMP_FAILURE_RETRY P (sys e) fuel w) := by
  refine ⟨_, retry_run P e k fuel w hint hend hfuel, rfl, rfl, ?_, rfl, ?_⟩ <;> simp

theorem returnsAfter_guarded (P : Consts) (e : Event) (k fuel : Nat) (w : World)
    (hint : ∀ i, i < k → interrupted P (w.script (w.next + i)))
    (hend : ¬ interrupted P (w.script (w.next + k))) (hfuel : k < fuel) :
    ReturnsAfter P w k e
      (if (w.script (w.next + k)).rc < 0 then -1 else (w.script (w.next + k)).rc)
      (if (w.script (w.next + k)).rc < 0 then [] else [(w.script (w.next + k)).rc])
      (match TEMP_FAILURE_RETRY P (sys e) fuel w with
        | Run.done (fd, w1) =>
          if fd < 0 then Run.done (-1, w1)
          else Run.done (fd, Posix.close_on_exec P fd w1)
        | Run.spin => Run.spin
        | Run.undef => Run.undef) := by
  rw [retry_run P e k fuel w hint hend hfuel]
  by_cases h : (w.script (w.next + k)).rc < 0
  · simp only [h, if_true]
    exact ⟨_, rfl, rfl, rfl, by simp, rfl, by simp⟩
  · simp only [h, if_false]
    exact ⟨_, rfl, rfl, rfl, by simp [Posix.close_on_exec], rfl,
      by simp [Posix.close_on_exec]⟩

theorem returnsAfter_accept (P : Consts) (e : Event) (k fuel : Nat) (w : World)
    (hint : ∀ i, i < k → interrupted P (w.script (w.next + i)))
    (hend : ¬ interrupted P (w.script (w.next + k))) (hfuel : k < fuel) :
    ReturnsAfter P w k e (w.script (w.next + k)).rc
      (if (w.script (w.next + k)).rc ≥ 0 then [(w.script (w.next + k)).rc] else [])
      (match TEMP_FAILURE_RETRY P (sys e) fuel w with
        | Run.done (fd, w1) =>
          if fd ≥ 0 then Run.done (fd, Posix.close_on_exec P fd w1)
          else Run.done (fd, w1)
        | Run.spin => Run.spin
        | Run.undef => Run.undef) := by
  rw [retry_run P e k fuel w hint hend hfuel]
  by_cases h : (w.script (w.next + k)).rc ≥ 0
  · simp only [h, if_true]
    exact ⟨_, rfl, rfl, rfl, by simp [Posix.close_on_exec], rfl,
      by simp [Posix.close_on_exec]⟩
  · simp only [h, if_false]
    exact ⟨_, rfl, rfl, rfl, by simp, rfl, by simp⟩

theorem returnsAfter_narrowed (P : Consts) (e : Event) (k fuel : Nat) (w : World)
    (hint : ∀ i, i < k → interrupted P (w.script (w.next + i)))
    (hend : ¬ interrupted P (w.script (w.next + k))) (hfuel : k < fuel) :
    ReturnsAfter P w k e (narrowInt (w.script (w.next + k)).rc) []
      (match TEMP_FAILURE_RETRY P (sys e) fuel w with
        | Run.done (rc, w1) => Run.done (narrowInt rc, w1)
        | Run.spin => Run.spin
        | Run.undef => Run.undef) := by
  rw [retry_run P e k fuel w hint hend hfuel]
  exact ⟨_, rfl, rfl, rfl, by simp, rfl, by simp⟩

theorem narrowInt_of_fits (x : Int) (hlo : -2147483648 ≤ x) (hhi : x ≤ 2147483647) :
    narrowInt x = x := by
  unfold narrowInt
  omega

/-- C1, as amended: if the first `k` outcomes the underlying call receives are
all (-1, EINTR) and outcome number `k` is not, then (given a loop bound above
`k`) each of `emmcdl_read`, `emmcdl_write`, `emmcdl_socket_accept`,
`emmcdl_open` and `emmcdl_creat` returns, having made exactly `k + 1`
underlying calls, all with the arguments it was given, and its value is the
return value of outcome `k` as the wrapper's `int` result carries it:
for `emmcdl_read` and `emmcdl_write` that value converted from `ssize_t` to
`int`, which is the value itself when it lies in the range of `int`; for
`emmcdl_socket_accept` the value itself; for `emmcdl_open` and `emmcdl_creat`
the value itself when it is not negative and `-1` when it is, which is the
value itself when it is at least `-1`. -/
theorem retry_wrappers_return_converted_value (P : Consts) (w : World)
    (k fuel : Nat) (fd : Int) (buf len : Nat) (serverfd : Int)
    (addr addrlen : Nat) (path : CStr) (options mode : Int)
    (hint : ∀ i, i < k → interrupted P (w.script (w.next + i)))
    (hend : ¬ interrupted P (w.script (w.next + k))) (hfuel : k < fuel) :
    ReturnsAfter P w k (Event.read fd buf len)
      (narrowInt (w.script (w.next + k)).rc) []
      (Posix.emmcdl_read P fuel fd buf len w) ∧
    ReturnsAfter P w k (Event.write fd buf len)
      (narrowInt (w.script (w.next + k)).rc) []
      (Posix.emmcdl_write P fuel fd buf len w) ∧
    (-2147483648 ≤ (w.script (w.next + k)).rc →
      (w.script (w.next + k)).rc ≤ 2147483647 →
      narrowInt (w.script (w.next + k)).rc = (w.script (w.next + k)).rc) ∧
    ReturnsAfter P w k (Event.accept serverfd addr addrlen)
      (w.script (w.next + k)).rc
      (if (w.script (w.next + k)).rc ≥ 0 then [(w.script (w.next + k)).rc] else [])
      (Posix.emmcdl_socket_accept P fuel serverfd addr addrlen w) ∧
    ReturnsAfter P w k (Event.open2 path options)
      (if (w.script (w.next + k)).rc < 0 then -1 else (w.script (w.next + k)).rc)
      (if (w.script (w.next + k)).rc < 0 then [] else [(w.script (w.next + k)).rc])
      (Posix.emmcdl_open P fuel path options w) ∧
    ReturnsAfter P w k (Event.creat path mode)
      (if (w.script (w.next + k)).rc < 0 then -1 else (w.script (w.next + k)).rc)
      (if (w.script (w.next + k)).rc < 0 then [] else [(w.script (w.next + k)).rc])
      (Posix.emmcdl_creat P fuel path mode w) ∧
    (-1 ≤ (w.script (w.next + k)).rc →
      (if (w.script (w.next + k)).rc < 0 then -1 else (w.script (w.next + k)).rc)
        = (w.script (w.next + k)).rc) := by
  refine ⟨returnsAfter_narrowed P _ k fuel w hint hend hfuel,
    returnsAfter_narrowed P _ k fuel w hint hend hfuel,
    narrowInt_of_fits _,
    returnsAfter_accept P _ k fuel w hint hend hfuel,
    returnsAfter_guarded P _ k fuel w hint hend hfuel,
    returnsAfter_guarded P _ k fuel w hint hend hfuel, ?_⟩
  intro h
  split <;> omega

/-- Witness of C1 as amended: two interruptions (k = 2), then the call returns
7; with a loop bound of 3 `emmcdl_read` makes three identical calls and
returns 7, the conversion to `int` leaving 7 as it is. -/
theorem retry_wrappers_witness :
    (∀ i, i < 2 → interrupted linux
      ((World.start twiceInterrupted).script ((World.start twiceInterrupted).next + i))) ∧
    ¬ interrupted linux
      ((World.start twiceInterrupted).script ((World.start twiceInterrupted).next + 2)) ∧
    ReturnsAfter linux (World.start twiceInterrupted) 2 (Event.read 5 0 16) 7 []
      (Posix.emmcdl_read linux 3 5 0 16 (World.start twiceInterrupted)) :=
  ⟨by decide, by decide,
   (retry_wrappers_return_converted_value linux (World.start twiceInterrupted)
      2 3 5 0 16 3 0 0 ['f'] 0 420 (by decide) (by decide) (by decide)).1⟩

/-- Counterexample to C1 as stated.  With no interruption (k = 0) `read`
returns 4294967301 and leaves `errno` at 0, an outcome that is not
(-1, EINTR); `emmcdl_read` makes the one call and returns 5, not the return
value of that outcome.  Likewise `open` returning -5 is an outcome that is
not (-1, EINTR), and `emmcdl_open` makes the one call and returns -1. -/
theorem retry_wrapper_result_differs_from_outcome :
    ¬ interrupted linux ((World.start hugeTransfer).script (World.start hugeTransfer).next) ∧
    ((World.start hugeTransfer).script (World.start hugeTransfer).next).rc = 4294967301 ∧
    Posix.emmcdl_read linux 1 5 0 4294967301 (World.start hugeTransfer)
      = Run.done (5, readHuge) ∧
    readHuge.trace = [Event.read 5 0 4294967301] ∧
    (5 : Int) ≠ 4294967301 ∧
    ¬ interrupted linux
      ((World.start alwaysMinusFive).script (World.start alwaysMinusFive).next) ∧
    ((World.start alwaysMinusFive).script (World.start alwaysMinusFive).next).rc = -5 ∧
    Posix.emmcdl_open linux 1 ['f'] 0 (World.start alwaysMinusFive)
      = Run.done (-1, openedMinusFive) ∧
    openedMinusFive.trace = [Event.open2 ['f'] 0] ∧
    (-1 : Int) ≠ -5 :=
  ⟨by decide, rfl, rfl, rfl, by decide, by decide, rfl, rfl, rfl, by decide⟩

/-- C3: when the retried `open` (resp. `creat`) yields `fd >= 0`, `emmcdl_open`
(resp. `emmcdl_creat`) applies `close_on_exec` to that `fd` and to nothing
else, once, and returns `fd`; when it yields a negative value the wrapper
returns `-1` and applies `close_on_exec` to nothing. -/
theorem open_creat_flag_exactly_the_result (P : Consts) (w : World)
    (k fuel : Nat) (path : CStr) (options mode : Int)
    (hint : ∀ i, i < k → interrupted P (w.script (w.next + i)))
    (hend : ¬ interrupted P (w.script (w.next + k))) (hfuel : k < fuel) :
    (0 ≤ (w.script (w.next + k)).rc →
      ReturnsAfter P w k (Event.open2 path options) (w.script (w.next + k)).rc
        [(w.script (w.next + k)).rc] (Posix.emmcdl_open P fuel path options w) ∧
      ReturnsAfter P w k (Event.creat path mode) (w.script (w.next + k)).rc
        [(w.script (w.next + k)).rc] (Posix.emmcdl_creat P fuel path mode w)) ∧
    ((w.script (w.next + k)).rc < 0 →
      ReturnsAfter P w k (Event.open2 path options) (-1) []
        (Posix.emmcdl_open P fuel path options w) ∧
      ReturnsAfter P w k (Event.creat path mode) (-1) []
        (Posix.emmcdl_creat P fuel path mode w)) := by
  have ho := returnsAfter_guarded P (Event.open2 path options) k fuel w hint hend hfuel
  have hc := returnsAfter_guarded P (Event.creat path mode) k fuel w hint hend hfuel
  constructor
  · intro h
    have h' : ¬ (w.script (w.next + k)).rc < 0 := by omega
    simp only [h', if_false] at ho hc
    exact ⟨ho, hc⟩
  · intro h
    simp only [h, if_true] at ho hc
    exact ⟨ho, hc⟩

/-- Witness of C3: after two interruptions `open` yields descriptor 7;
`emmcdl_open` returns 7 with the flag of 7, and only of 7, set. -/
theorem open_creat_flag_witness :
    ReturnsAfter linux (World.start twiceInterrupted) 2 (Event.open2 ['f'] 0) 7 [7]
      (Posix.emmcdl_open linux 3 ['f'] 0 (World.start twiceInterrupted)) :=
  ((open_creat_flag_exactly_the_result linux (World.start twiceInterrupted)
      2 3 ['f'] 0 420 (by decide) (by decide) (by decide)).1 (by decide)).1

theorem retry_done_cloexec (P : Consts) (e : Event) :
    ∀ (fuel : Nat) (w : World) (v : Int) (w1 : World),
      TEMP_FAILURE_RETRY P (sys e) fuel w = Run.done (v, w1) →
      w1.cloexec = w.cloexec := by
  intro fuel
  induction fuel with
  | zero => intro w v w1 h; simp [TEMP_FAILURE_RETRY] at h
  | succ f ih =>
    intro w v w1 h
    by_cases hc : (sys e w).1 = -1 ∧ (sys e w).2.errno = P.EINTR
    · have hstep : TEMP_FAILURE_RETRY P (sys e) (f + 1) w =
          TEMP_FAILURE_RETRY P (sys e) f (sys e w).2 := by
        simp [TEMP_FAILURE_RETRY, hc]
      rw [hstep] at h
      rw [ih _ _ _ h]
      rfl
    · have hstep : TEMP_FAILURE_RETRY P (sys e) (f + 1) w = Run.done (sys e w) := by
        simp only [TEMP_FAILURE_RETRY, hc, if_false]
      rw [hstep] at h
      injection h with h
      have : w1 = (sys e w).2 := by rw [h]
      rw [this]
      rfl

theorem guarded_done_flag (P : Consts) (r : Run (Int × World)) (w : World)
    (fd : Int) (w2 : World)
    (h : (match r with
        | Run.done (fd, w1) =>
          if fd < 0 then Run.done (-1, w1)
          else Run.done (fd, Posix.close_on_exec P fd w1)
        | Run.spin => Run.spin
        | Run.undef => Run.undef) = Run.done (fd, w2))
    (hr : ∀ v w1, r = Run.done (v, w1) → w1.cloexec = w.cloexec)
    (hfd : 0 ≤ fd) :
    w2.cloexec = w.cloexec ++ [fd] ∧
      ∃ pre, w2.trace = pre ++ [Event.fcntl fd P.F_SETFD P.FD_CLOEXEC] := by
  cases r with
  | spin => simp at h
  | undef => simp at h
  | done a =>
    obtain ⟨v, w1⟩ := a
    have hw1 := hr v w1 rfl
    by_cases hv : v < 0
    · simp only [hv, if_true] at h
      injection h with h
      injection h with h1 h2
      omega
    · simp only [hv, if_false] at h
      injection h with h
      injection h with h1 h2
      subst h1
      subst h2
      exact ⟨by simp [Posix.close_on_exec, hw1], ⟨w1.trace, rfl⟩⟩

theorem accept_done_flag (P : Consts) (r : Run (Int × World)) (w : World)
    (fd : Int) (w2 : World)
    (h : (match r with
        | Run.done (fd, w1) =>
          if fd ≥ 0 then Run.done (fd, Posix.close_on_exec P fd w1)
          else Run.done (fd, w1)
        | Run.spin => Run.spin
        | Run.undef => Run.undef) = Run.done (fd, w2))
    (hr : ∀ v w1, r = Run.done (v, w1) → w1.cloexec = w.cloexec)
    (hfd : 0 ≤ fd) :
    w2.cloexec = w.cloexec ++ [fd] ∧
      ∃ pre, w2.trace = pre ++ [Event.fcntl fd P.F_SETFD P.FD_CLOEXEC] := by
  cases r with
  | spin => simp at h
  | undef => simp at h
  | done a =>
    obtain ⟨v, w1⟩ := a
    have hw1 := hr v w1 rfl
    by_cases hv : v ≥ 0
    · simp only [hv, if_true] at h
      injection h with h
      injection h with h1 h2
      subst h1
      subst h2
      exact ⟨by simp [Posix.close_on_exec, hw1], ⟨w1.trace, rfl⟩⟩
    · simp only [hv, if_false] at h
      injection h with h
      injection h with h1 h2
      omega

/-- C2, as amended: on the Unix half, whenever `emmcdl_open`, `emmcdl_creat` or
`emmcdl_socket_accept` returns a descriptor `fd >= 0`, and whenever
`emmcdl_socketpair` returns 0, the wrapper has applied `close_on_exec` to
every descriptor it hands back: the flags set are those set on entry followed
by the returned descriptor (both descriptors for `emmcdl_socketpair`), and the
last thing traced is the `fcntl` that sets the flag.  `unix_open` hands its
descriptor back with the flags exactly as they were on entry. -/
theorem creating_wrappers_flag_what_they_return (P : Consts) (fuel : Nat)
    (w : World) (path : CStr) (options mode : Int) (serverfd : Int)
    (addr addrlen : Nat) (va : Option Int) :
    (∀ fd w1, Posix.emmcdl_open P fuel path options w = Run.done (fd, w1) → 0 ≤ fd →
      w1.cloexec = w.cloexec ++ [fd] ∧
      ∃ pre, w1.trace = pre ++ [Event.fcntl fd P.F_SETFD P.FD_CLOEXEC]) ∧
    (∀ fd w1, Posix.emmcdl_creat P fuel path mode w = Run.done (fd, w1) → 0 ≤ fd →
      w1.cloexec = w.cloexec ++ [fd] ∧
      ∃ pre, w1.trace = pre ++ [Event.fcntl fd P.F_SETFD P.FD_CLOEXEC]) ∧
    (∀ fd w1, Posix.emmcdl_socket_accept P fuel serverfd addr addrlen w
        = Run.done (fd, w1) → 0 ≤ fd →
      w1.cloexec = w.cloexec ++ [fd] ∧
      ∃ pre, w1.trace = pre ++ [Event.fcntl fd P.F_SETFD P.FD_CLOEXEC]) ∧
    (∀ sv w1, Posix.emmcdl_socketpair P w = ((0, sv), w1) →
      w1.cloexec = w.cloexec ++ [sv.1, sv.2] ∧
      ∃ pre, w1.trace = pre ++ [Event.fcntl sv.1 P.F_SETFD P.FD_CLOEXEC,
        Event.fcntl sv.2 P.F_SETFD P.FD_CLOEXEC]) ∧
    (∀ fd w1, Posix.unix_open P fuel path options va w = Run.done (fd, w1) →
      w1.cloexec = w.cloexec) := by
  refine ⟨?_, ?_, ?_, ?_, ?_⟩
  · intro fd w1 h hfd
    exact guarded_done_flag P _ w fd w1 h (retry_done_cloexec P _ fuel w) hfd
  · intro fd w1 h hfd
    exact guarded_done_flag P _ w fd w1 h (retry_done_cloexec P _ fuel w) hfd
  · intro fd w1 h hfd
    exact accept_done_flag P _ w fd w1 h (retry_done_cloexec P _ fuel w) hfd
  · intro sv w1 h
    unfold Posix.emmcdl_socketpair at h
    by_cases hrc : (Posix.unix_socketpair P.AF_UNIX P.SOCK_STREAM 0 w).1.1 < 0
    · simp only [hrc, if_true] at h
      injection h with h1 h2
      injection h1 with h3 h4
      omega
    · simp only [hrc, if_false] at h
      injection h with h1 h2
      injection h1 with h3 h4
      subst h2
      subst h4
      exact ⟨by simp [Posix.close_on_exec, Posix.unix_socketpair, World.call],
        ⟨_, by simp [Posix.close_on_exec]; rfl⟩⟩
  · intro fd w1 h
    unfold Posix.unix_open at h
    by_cases hb : Int.land options P.O_CREAT = 0
    · simp only [hb, if_true] at h
      exact retry_done_cloexec P _ fuel _ fd w1 h
    · simp only [hb, if_false] at h
      cases va with
      | none => simp at h
      | some m =>
        simp only at h
        have hk := retry_done_cloexec P _ fuel _ fd w1 h
        exact hk

/-- Witness of C2 as amended: `open` yields descriptor 7 after two
interruptions, `emmcdl_open` returns it, and the flag of 7 is set. -/
theorem creating_wrappers_flag_witness :
    openedSeven.cloexec = (World.start twiceInterrupted).cloexec ++ [7] ∧
    ∃ pre, openedSeven.trace = pre ++ [Event.fcntl 7 linux.F_SETFD linux.FD_CLOEXEC] :=
  (creating_wrappers_flag_what_they_return linux 3 (World.start twiceInterrupted)
    ['f'] 0 420 3 0 0 none).1 7 openedSeven rfl (by decide)

/-- Counterexample to C2 as stated: `open` yields descriptor 3 at once and
`unix_open` returns it, a successful return, yet no `fcntl` has been traced
and no close-on-exec flag is set.  `emmcdl_open_mode` does the same with
`open("f", O_CREAT, 0644)`. -/
theorem unix_open_returns_unflagged_descriptor :
    Posix.unix_open linux 1 ['f'] 0 none (World.start alwaysThree)
      = Run.done (3, openedThree) ∧
    0 ≤ (3 : Int) ∧ (3 : Int) ∉ openedThree.cloexec ∧
    openedThree.trace = [Event.open2 ['f'] 0] ∧
    Posix.emmcdl_open_mode linux 1 ['f'] 64 420 (World.start alwaysThree)
      = Run.done (3, createdThree) ∧
    (3 : Int) ∉ createdThree.cloexec ∧
    createdThree.trace = [Event.open3 ['f'] 64 420] :=
  ⟨rfl, by decide, by decide, rfl, rfl, by decide, rfl⟩

/-! ## `emmcdl_unlink` on Windows -/

/-- C4: Windows `emmcdl_unlink` traces at most two `unlink` calls.  It makes
the second one exactly when the first `unlink` returned -1 with `errno`
`EACCES` and the `chmod` returned 0, and then returns what the second `unlink`
returned, the calls being `unlink`, `chmod(path, _S_IREAD|_S_IWRITE)`,
`unlink`.  A first `unlink` that returns -1 with another `errno` makes the
wrapper return -1 after that single call; a first `unlink` that returns 0
makes it return 0 after that single call.  When the `chmod` does not return 0
the wrapper returns the value of the `chmod` after `unlink`, `chmod`. -/
theorem win_unlink_retries_once_after_chmod (P : Consts) (path : CStr) (w : World) :
    (∃ evs, (Win32.emmcdl_unlink P path w).2.trace = w.trace ++ evs ∧
      evs.count (Event.unlink path) ≤ 2 ∧
      (evs.count (Event.unlink path) = 2 ↔
        ((w.script w.next).rc = -1 ∧ (w.script w.next).errno = P.EACCES ∧
          (w.script (w.next + 1)).rc = 0))) ∧
    ((w.script w.next).rc = -1 → (w.script w.next).errno = P.EACCES →
      (w.script (w.next + 1)).rc = 0 →
      (Win32.emmcdl_unlink P path w).1 = (w.script (w.next + 2)).rc ∧
      (Win32.emmcdl_unlink P path w).2.trace = w.trace ++
        [Event.unlink path, Event.chmod path (Int.lor P.S_IREAD P.S_IWRITE),
         Event.unlink path]) ∧
    ((w.script w.next).rc = -1 → (w.script w.next).errno ≠ P.EACCES →
      (Win32.emmcdl_unlink P path w).1 = -1 ∧
      (Win32.emmcdl_unlink P path w).2.trace = w.trace ++ [Event.unlink path]) ∧
    ((w.script w.next).rc = 0 →
      (Win32.emmcdl_unlink P path w).1 = 0 ∧
      (Win32.emmcdl_unlink P path w).2.trace = w.trace ++ [Event.unlink path]) ∧
    ((w.script w.next).rc = -1 → (w.script w.next).errno = P.EACCES →
      (w.script (w.next + 1)).rc ≠ 0 →
      (Win32.emmcdl_unlink P path w).1 = (w.script (w.next + 1)).rc ∧
      (Win32.emmcdl_unlink P path w).2.trace = w.trace ++
        [Event.unlink path, Event.chmod path (Int.lor P.S_IREAD P.S_IWRITE)]) := by
  by_cases h1 : (w.script w.next).rc = -1 ∧ (w.script w.next).errno = P.EACCES
  · by_cases h2 : (w.script (w.next + 1)).rc = 0
    · have hv : Win32.emmcdl_unlink P path w =
          sys (Event.unlink path)
            (sys (Event.chmod path (Int.lor P.S_IREAD P.S_IWRITE))
              (sys (Event.unlink path) w).2).2 := by
        simp [Win32.emmcdl_unlink, sys, World.call, h1, h2]
      rw [hv]
      refine ⟨⟨[Event.unlink path, Event.chmod path (Int.lor P.S_IREAD P.S_IWRITE),
          Event.unlink path], by simp [sys, World.call], by simp [List.count_cons],
          by simp [List.count_cons, h1, h2]⟩, ?_, ?_, ?_, ?_⟩
      · intro _ _ _
        simp [sys, World.call, Nat.add_assoc]
      · intro _ hne
        exact absurd h1.2 hne
      · intro h0
        rw [h1.1] at h0
        omega
      · intro _ _ hne
        exact absurd h2 hne
    · have hv : Win32.emmcdl_unlink P path w =
          sys (Event.chmod path (Int.lor P.S_IREAD P.S_IWRITE))
            (sys (Event.unlink path) w).2 := by
        simp [Win32.emmcdl_unlink, sys, World.call, h1, h2]
      rw [hv]
      refine ⟨⟨[Event.unlink path, Event.chmod path (Int.lor P.S_IREAD P.S_IWRITE)],
          by simp [sys, World.call], by simp [List.count_cons],
          by simp [List.count_cons, h2]⟩, ?_, ?_, ?_, ?_⟩
      · intro _ _ h0
        exact absurd h0 h2
      · intro _ hne
        exact absurd h1.2 hne
      · intro h0
        rw [h1.1] at h0
        omega
      · intro _ _ _
        simp [sys, World.call]
  · have hv : Win32.emmcdl_unlink P path w = sys (Event.unlink path) w := by
      simp [Win32.emmcdl_unlink, sys, World.call, h1]
    rw [hv]
    refine ⟨⟨[Event.unlink path], by simp [sys, World.call], by simp [List.count_cons],
        ?_⟩, ?_, ?_, ?_, ?_⟩
    · constructor
      · intro h
        simp [List.count_cons] at h
      · intro h
        exact absurd ⟨h.1, h.2.1⟩ h1
    · intro a b _
      exact absurd ⟨a, b⟩ h1
    · intro a _
      simp [sys, World.call, a]
    · intro a
      simp [sys, World.call, a]
    · intro a b _
      exact absurd ⟨a, b⟩ h1

/-- Witness of C4: on a read-only file the first `unlink` fails with `EACCES`,
the `chmod` succeeds, and the wrapper returns the 0 of the second `unlink`. -/
theorem win_unlink_read_only_witness :
    (Win32.emmcdl_unlink msvc ['f'] (World.start readOnlyFile)).1
      = ((World.start readOnlyFile).script ((World.start readOnlyFile).next + 2)).rc ∧
    (Win32.emmcdl_unlink msvc ['f'] (World.start readOnlyFile)).2.trace
      = (World.start readOnlyFile).trace ++
        [Event.unlink ['f'], Event.chmod ['f'] (Int.lor msvc.S_IREAD msvc.S_IWRITE),
         Event.unlink ['f']] :=
  (win_unlink_retries_once_after_chmod msvc ['f'] (World.start readOnlyFile)).2.1
    (by decide) (by decide) (by decide)

/-! ## `strchr` and `strrchr` -/

theorem hasAt_nil (j : Nat) (c : Char) : ¬ hasAt [] j c := by
  intro h
  simp [hasAt, strlen] at h

theorem hasAt_cons_zero (x : Char) (xs : CStr) (c : Char) :
    hasAt (x :: xs) 0 c ↔ x ≠ NUL ∧ x = c := by
  by_cases hx : x = NUL <;> simp [hasAt, strlen, hx]

theorem hasAt_cons_succ (x : Char) (xs : CStr) (j : Nat) (c : Char) :
    hasAt (x :: xs) (j + 1) c ↔ x ≠ NUL ∧ hasAt xs j c := by
  by_cases hx : x = NUL <;> simp [hasAt, strlen, hx]

theorem strchr_some (c : Char) (hc : c ≠ NUL) :
    ∀ (s : CStr) (i : Nat), strchr s c = some i →
      hasAt s i c ∧ ∀ j, hasAt s j c → i ≤ j := by
  intro s
  induction s with
  | nil => intro i h; simp [strchr, hc] at h
  | cons x xs ih =>
    intro i h
    by_cases hxc : x = c
    · have hi : i = 0 := by simpa [strchr, hxc] using h.symm
      subst hi
      have hx : x ≠ NUL := by rw [hxc]; exact hc
      exact ⟨(hasAt_cons_zero x xs c).2 ⟨hx, hxc⟩, fun j _ => Nat.zero_le j⟩
    · by_cases hx : x = NUL
      · simp only [strchr, if_neg hxc, if_pos hx] at h
        cases h
      · simp only [strchr, hxc, hx, if_false, Option.map_eq_some'] at h
        obtain ⟨i0, h0, rfl⟩ := h
        obtain ⟨hat, hmin⟩ := ih i0 h0
        refine ⟨(hasAt_cons_succ x xs i0 c).2 ⟨hx, hat⟩, ?_⟩
        intro j hj
        cases j with
        | zero => exact absurd ((hasAt_cons_zero x xs c).1 hj).2 hxc
        | succ j =>
          have := hmin j ((hasAt_cons_succ x xs j c).1 hj).2
          omega

theorem strchr_none (c : Char) :
    ∀ (s : CStr), strchr s c = none → ∀ j, ¬ hasAt s j c := by
  intro s
  induction s with
  | nil => intro _ j; exact hasAt_nil j c
  | cons x xs ih =>
    intro h j hj
    by_cases hxc : x = c
    · simp [strchr, hxc] at h
    · by_cases hx : x = NUL
      · cases j with
        | zero => exact ((hasAt_cons_zero x xs c).1 hj).1 hx
        | succ j => exact ((hasAt_cons_succ x xs j c).1 hj).1 hx
      · simp only [strchr, hxc, hx, if_false, Option.map_eq_none'] at h
        cases j with
        | zero => exact hxc ((hasAt_cons_zero x xs c).1 hj).2
        | succ j => exact ih h j ((hasAt_cons_succ x xs j c).1 hj).2

theorem strrchrFrom_shift (c : Char) (hc : c ≠ NUL) :
    ∀ (s : CStr) (i : Nat) (last : Option Nat),
      strrchrFrom c s i last =
        match strrchrFrom c s 0 none with
        | some j => some (i + j)
        | none => last := by
  intro s
  induction s with
  | nil => intro i last; simp [strrchrFrom, hc]
  | cons x xs ih =>
    intro i last
    by_cases hx : x = NUL
    · simp [strrchrFrom, hx, hc]
    · simp only [strrchrFrom, hx, if_false]
      rw [ih (i + 1), ih (0 + 1)]
      cases hrec : strrchrFrom c xs 0 none with
      | some j => simp; omega
      | none =>
        by_cases hxc : x = c <;> simp [hxc]

theorem strrchr_cons (c : Char) (hc : c ≠ NUL) (x : Char) (xs : CStr) :
    strrchr (x :: xs) c =
      if x = NUL then none
      else match strrchr xs c with
        | some j => some (j + 1)
        | none => if x = c then some 0 else none := by
  unfold strrchr
  by_cases hx : x = NUL
  · simp [strrchrFrom, hx, hc]
  · simp only [strrchrFrom, hx, if_false]
    rw [strrchrFrom_shift c hc xs (0 + 1)]
    cases hrec : strrchrFrom c xs 0 none with
    | some j => simp; omega
    | none => simp

theorem strrchr_none (c : Char) (hc : c ≠ NUL) :
    ∀ (s : CStr), strrchr s c = none → ∀ j, ¬ hasAt s j c := by
  intro s
  induction s with
  | nil => intro _ j; exact hasAt_nil j c
  | cons x xs ih =>
    intro h j hj
    rw [strrchr_cons c hc] at h
    by_cases hx : x = NUL
    · cases j with
      | zero => exact ((hasAt_cons_zero x xs c).1 hj).1 hx
      | succ j => exact ((hasAt_cons_succ x xs j c).1 hj).1 hx
    · simp only [hx, if_false] at h
      cases hrec : strrchr xs c with
      | some i0 => rw [hrec] at h; simp at h
      | none =>
        rw [hrec] at h
        by_cases hxc : x = c
        · simp [hxc] at h
        · cases j with
          | zero => exact hxc ((hasAt_cons_zero x xs c).1 hj).2
          | succ j => exact ih hrec j ((hasAt_cons_succ x xs j c).1 hj).2

theorem strrchr_some (c : Char) (hc : c ≠ NUL) :
    ∀ (s : CStr) (i : Nat), strrchr s c = some i →
      hasAt s i c ∧ ∀ j, hasAt s j c → j ≤ i := by
  intro s
  induction s with
  | nil => intro i h; simp [strrchr, strrchrFrom, hc] at h
  | cons x xs ih =>
    intro i h
    rw [strrchr_cons c hc] at h
    by_cases hx : x = NUL
    · simp [hx] at h
    · simp only [hx, if_false] at h
      cases hrec : strrchr xs c with
      | some i0 =>
        rw [hrec] at h
        simp only [Option.some.injEq] at h
        subst h
        obtain ⟨hat, hmax⟩ := ih i0 hrec
        refine ⟨(hasAt_cons_succ x xs i0 c).2 ⟨hx, hat⟩, ?_⟩
        intro j hj
        cases j with
        | zero => omega
        | succ j =>
          have := hmax j ((hasAt_cons_succ x xs j c).1 hj).2
          omega
      | none =>
        rw [hrec] at h
        by_cases hxc : x = c
        · simp only [hxc, if_true, Option.some.injEq] at h
          subst h
          refine ⟨(hasAt_cons_zero x xs c).2 ⟨hx, hxc⟩, ?_⟩
          intro j hj
          cases j with
          | zero => exact Nat.le_refl 0
          | succ j =>
            exact absurd ((hasAt_cons_succ x xs j c).1 hj).2
              (strrchr_none c hc xs hrec j)
        · simp [hxc] at h

theorem slash_ne_NUL : ('/' : Char) ≠ NUL := by decide

theorem backslash_ne_NUL : ('\\' : Char) ≠ NUL := by decide

/-! ## The directory scans of the Windows half -/

/-- C5: Windows `emmcdl_dirstop` returns the greatest index of the path that
holds `/` or `\`, and returns null exactly when the path holds neither; for
the five characters `a / b \ c` it returns index 3, the backslash. -/
theorem win_dirstop_is_rightmost_separator (path : CStr) :
    (∀ i, Win32.emmcdl_dirstop path = some i →
      (∃ c, hasAt path i c ∧ isSep c) ∧
      ∀ j c, hasAt path j c → isSep c → j ≤ i) ∧
    (Win32.emmcdl_dirstop path = none ↔ ∀ j c, hasAt path j c → ¬ isSep c) ∧
    Win32.emmcdl_dirstop ['a', '/', 'b', '\\', 'c'] = some 3 := by
  refine ⟨?_, ?_, by decide⟩
  · intro i h
    unfold Win32.emmcdl_dirstop at h
    cases hp : strrchr path '/' with
    | none =>
      rw [hp] at h
      simp only at h
      obtain ⟨hat, hmax⟩ := strrchr_some _ backslash_ne_NUL path i h
      refine ⟨⟨_, hat, Or.inr rfl⟩, ?_⟩
      intro j c hj hc
      rcases hc with hc | hc
      · subst hc
        exact absurd hj (strrchr_none _ slash_ne_NUL path hp j)
      · subst hc
        exact hmax j hj
    | some a =>
      rw [hp] at h
      obtain ⟨hata, hmaxa⟩ := strrchr_some _ slash_ne_NUL path a hp
      cases hp2 : strrchr path '\\' with
      | none =>
        rw [hp2] at h
        simp only [Option.some.injEq] at h
        subst h
        refine ⟨⟨_, hata, Or.inl rfl⟩, ?_⟩
        intro j c hj hc
        rcases hc with hc | hc
        · subst hc
          exact hmaxa j hj
        · subst hc
          exact absurd hj (strrchr_none _ backslash_ne_NUL path hp2 j)
      | some b =>
        rw [hp2] at h
        obtain ⟨hatb, hmaxb⟩ := strrchr_some _ backslash_ne_NUL path b hp2
        by_cases hba : b > a
        · simp only [hba, if_true, Option.some.injEq] at h
          subst h
          refine ⟨⟨_, hatb, Or.inr rfl⟩, ?_⟩
          intro j c hj hc
          rcases hc with hc | hc
          · subst hc
            have := hmaxa j hj
            omega
          · subst hc
            exact hmaxb j hj
        · simp only [hba, if_false, Option.some.injEq] at h
          subst h
          refine ⟨⟨_, hata, Or.inl rfl⟩, ?_⟩
          intro j c hj hc
          rcases hc with hc | hc
          · subst hc
            exact hmaxa j hj
          · subst hc
            have := hmaxb j hj
            omega
  · unfold Win32.emmcdl_dirstop
    cases hp : strrchr path '/' with
    | none =>
      cases hp2 : strrchr path '\\' with
      | none =>
        simp only [true_iff]
        intro j c hj hc
        rcases hc with hc | hc
        · subst hc
          exact strrchr_none _ slash_ne_NUL path hp j hj
        · subst hc
          exact strrchr_none _ backslash_ne_NUL path hp2 j hj
      | some b =>
        simp only [false_iff, reduceCtorEq]
        intro hall
        exact hall b _ (strrchr_some _ backslash_ne_NUL path b hp2).1 (Or.inr rfl)
    | some a =>
      have hnot : ¬ ∀ j c, hasAt path j c → ¬ isSep c := fun hall =>
        hall a _ (strrchr_some _ slash_ne_NUL path a hp).1 (Or.inl rfl)
      cases hp2 : strrchr path '\\' with
      | none => simp only [reduceCtorEq, false_iff]; exact hnot
      | some b =>
        by_cases hba : b > a <;> simp only [hba, if_true, if_false, reduceCtorEq, false_iff]
          <;> exact hnot

/-- C6, the failing input: for the five characters `a / b \ c` Windows
`emmcdl_dirstart` returns index 3, the backslash, although index 1 holds a
separator, so the result is not the smallest index that holds one.  The
comparison `p2 > p` picks the later of the first `/` and the first `\`. -/
theorem win_dirstart_returns_later_separator :
    Win32.emmcdl_dirstart ['a', '/', 'b', '\\', 'c'] = some 3 ∧
    hasAt ['a', '/', 'b', '\\', 'c'] 1 '/' ∧ isSep '/' ∧
    strchr ['a', '/', 'b', '\\', 'c'] '/' = some 1 ∧
    strchr ['a', '/', 'b', '\\', 'c'] '\\' = some 3 :=
  ⟨by decide, by decide, by decide, by decide, by decide⟩

/-! ## The directory scans of the Unix half -/

theorem strchr_sameForSlash (p q : CStr) (h : List.Forall₂ sameForSlash p q) :
    strchr p '/' = strchr q '/' := by
  induction h with
  | nil => rfl
  | @cons a b l1 l2 hab _ ih =>
    obtain ⟨hs, hn⟩ := hab
    by_cases ha : a = '/'
    · have hb : b = '/' := hs.1 ha
      simp [strchr, ha, hb]
    · have hb : ¬ b = '/' := fun hb => ha (hs.2 hb)
      by_cases han : a = NUL
      · have hbn : b = NUL := hn.1 han
        simp only [strchr, if_neg ha, if_neg hb, if_pos han, if_pos hbn]
      · have hbn : ¬ b = NUL := fun hbn => han (hn.2 hbn)
        simp only [strchr, if_neg ha, if_neg hb, if_neg han, if_neg hbn, ih]

theorem strrchrFrom_sameForSlash (p q : CStr) (h : List.Forall₂ sameForSlash p q) :
    ∀ (i : Nat) (last : Option Nat),
      strrchrFrom '/' p i last = strrchrFrom '/' q i last := by
  induction h with
  | nil => intro i last; rfl
  | @cons a b l1 l2 hab _ ih =>
    intro i last
    obtain ⟨hs, hn⟩ := hab
    by_cases han : a = NUL
    · have hbn : b = NUL := hn.1 han
      simp only [strrchrFrom, if_pos han, if_pos hbn]
    · have hbn : ¬ b = NUL := fun hbn => han (hn.2 hbn)
      by_cases ha : a = '/'
      · have hb : b = '/' := hs.1 ha
        simp only [strrchrFrom, if_neg han, if_neg hbn, if_pos ha, if_pos hb, ih]
      · have hb : ¬ b = '/' := fun hb => ha (hs.2 hb)
        simp only [strrchrFrom, if_neg han, if_neg hbn, if_neg ha, if_neg hb, ih]

theorem sameForSlash_replace (r : Char) (hr : r ≠ '/') (hn : r ≠ NUL) :
    ∀ (path : CStr), List.Forall₂ sameForSlash path
      (path.map (fun c => if c = '\\' then r else c)) := by
  intro path
  induction path with
  | nil => exact List.Forall₂.nil
  | cons x xs ih =>
    refine List.Forall₂.cons ?_ ih
    by_cases hx : x = '\\'
    · subst hx
      simp only [if_true]
      exact ⟨⟨fun h => absurd h (by decide), fun h => absurd h hr⟩,
        ⟨fun h => absurd h (by decide), fun h => absurd h hn⟩⟩
    · simp only [if_neg hx]
      exact ⟨Iff.rfl, Iff.rfl⟩

/-- C7: on the Unix half `emmcdl_dirstop` returns the greatest index of the
path that holds `/` and `emmcdl_dirstart` the smallest; each returns null
exactly when the path holds no `/`.  Backslashes play no part: two paths
that hold `/` at the same indices and end at the same index give the same
results, so the results do not change when every backslash of the path is
replaced by any other character `r` that is neither `/` nor NUL, and a path
with backslashes and no `/` gives null.  For `a/b`, `emmcdl_dirstop` returns
index 1. -/
theorem posix_dir_scans_see_only_slash (path q : CStr) (r : Char) :
    (∀ i, Posix.emmcdl_dirstop path = some i →
      hasAt path i '/' ∧ ∀ j, hasAt path j '/' → j ≤ i) ∧
    (∀ i, Posix.emmcdl_dirstart path = some i →
      hasAt path i '/' ∧ ∀ j, hasAt path j '/' → i ≤ j) ∧
    (Posix.emmcdl_dirstop path = none ↔ ∀ j, ¬ hasAt path j '/') ∧
    (Posix.emmcdl_dirstart path = none ↔ ∀ j, ¬ hasAt path j '/') ∧
    (List.Forall₂ sameForSlash path q →
      Posix.emmcdl_dirstop path = Posix.emmcdl_dirstop q ∧
      Posix.emmcdl_dirstart path = Posix.emmcdl_dirstart q) ∧
    (r ≠ '/' → r ≠ NUL →
      Posix.emmcdl_dirstop (path.map (fun c => if c = '\\' then r else c))
        = Posix.emmcdl_dirstop path ∧
      Posix.emmcdl_dirstart (path.map (fun c => if c = '\\' then r else c))
        = Posix.emmcdl_dirstart path) ∧
    Posix.emmcdl_dirstop ['a', '/', 'b'] = some 1 ∧
    Posix.emmcdl_dirstop ['a', '\\', 'b'] = none ∧
    Posix.emmcdl_dirstart ['a', '\\', 'b'] = none := by
  refine ⟨?_, ?_, ?_, ?_, ?_, ?_, by decide, by decide, by decide⟩
  · intro i h
    exact strrchr_some _ slash_ne_NUL path i h
  · intro i h
    exact strchr_some _ slash_ne_NUL path i h
  · constructor
    · intro h
      exact strrchr_none _ slash_ne_NUL path h
    · intro hall
      cases hp : Posix.emmcdl_dirstop path with
      | none => rfl
      | some a => exact absurd (strrchr_some _ slash_ne_NUL path a hp).1 (hall a)
  · constructor
    · intro h
      exact strchr_none _ path h
    · intro hall
      cases hp : Posix.emmcdl_dirstart path with
      | none => rfl
      | some a => exact absurd (strchr_some _ slash_ne_NUL path a hp).1 (hall a)
  · intro h
    exact ⟨strrchrFrom_sameForSlash path q h 0 none, strchr_sameForSlash path q h⟩
  · intro hr hn
    have h := sameForSlash_replace r hr hn path
    exact ⟨(strrchrFrom_sameForSlash _ _ h 0 none).symm,
      (strchr_sameForSlash _ _ h).symm⟩

/-- Witness of C7: in `\a/b\/c` the last `/` is at index 5 and the first at
index 2, and replacing the backslashes by `x` changes neither result. -/
theorem posix_dir_scans_witness :
    (Posix.emmcdl_dirstop (['\\', 'a', '/', 'b', '\\', '/', 'c'].map
        (fun c => if c = '\\' then 'x' else c))
      = Posix.emmcdl_dirstop ['\\', 'a', '/', 'b', '\\', '/', 'c'] ∧
     Posix.emmcdl_dirstart (['\\', 'a', '/', 'b', '\\', '/', 'c'].map
        (fun c => if c = '\\' then 'x' else c))
      = Posix.emmcdl_dirstart ['\\', 'a', '/', 'b', '\\', '/', 'c']) ∧
    Posix.emmcdl_dirstop ['\\', 'a', '/', 'b', '\\', '/', 'c'] = some 5 ∧
    Posix.emmcdl_dirstart ['\\', 'a', '/', 'b', '\\', '/', 'c'] = some 2 :=
  ⟨(posix_dir_scans_see_only_slash ['\\', 'a', '/', 'b', '\\', '/', 'c'] [] 'x').2.2.2.2.2.1
      (by decide) (by decide),
   by decide, by decide⟩

/-! ## The absolute-path predicates -/

theorem isalpha_ne_zero_iff (c : Char) : isalpha c ≠ 0 ↔ isLetter c := by
  unfold isalpha isLetter
  split <;> simp_all

theorem isLetter_ne_NUL (c : Char) (h : isLetter c) : c ≠ NUL := by
  intro hc
  subst hc
  revert h
  decide

theorem win_abs_run (path : CStr) :
    ∃ v reads, Win32.emmcdl_is_absolute_host_path path = Run.done (v, reads) ∧
      (v ≠ 0 ↔ (∃ c, hasAt path 0 c ∧ isLetter c) ∧ hasAt path 1 ':' ∧
        hasAt path 2 '\\') ∧
      (∀ i, i ∈ reads → i ≤ strlen path) ∧
      (1 ∈ reads → ∃ c, hasAt path 0 c ∧ isLetter c) ∧
      (2 ∈ reads → hasAt path 1 ':') := by
  have hcolon : (':' : Char) ≠ NUL := by decide
  have hbs : ('\\' : Char) ≠ NUL := by decide
  cases path with
  | nil =>
    refine ⟨0, [0], by decide, ?_, by simp, by simp, by simp⟩
    simp [hasAt, strlen]
  | cons a t =>
    by_cases ha : isLetter a
    · have ha0 : isalpha a ≠ 0 := (isalpha_ne_zero_iff a).2 ha
      have haN : a ≠ NUL := isLetter_ne_NUL a ha
      have h0 : ∃ c, hasAt (a :: t) 0 c ∧ isLetter c :=
        ⟨a, (hasAt_cons_zero a t a).2 ⟨haN, rfl⟩, ha⟩
      cases t with
      | nil =>
        refine ⟨0, [0, 1], ?_, ?_, ?_, fun _ => h0, by simp⟩
        · simp [Win32.emmcdl_is_absolute_host_path, charAt, ha0]
          decide
        · simp [hasAt, strlen]
        · intro i hi
          simp [strlen, haN]
          simp at hi
          omega
      | cons b t2 =>
        by_cases hb : b = ':'
        · subst hb
          have h1 : hasAt (a :: ':' :: t2) 1 ':' :=
            (hasAt_cons_succ a _ 0 ':').2 ⟨haN, (hasAt_cons_zero ':' t2 ':').2 ⟨hcolon, rfl⟩⟩
          cases t2 with
          | nil =>
            refine ⟨0, [0, 1, 2], ?_, ?_, ?_, fun _ => h0, fun _ => h1⟩
            · simp [Win32.emmcdl_is_absolute_host_path, charAt, ha0]
              decide
            · simp [hasAt, strlen]
            · intro i hi
              simp [strlen, haN, hcolon]
              simp at hi
              omega
          | cons c t3 =>
            by_cases hc : c = '\\'
            · subst hc
              refine ⟨1, [0, 1, 2], ?_, ?_, ?_, fun _ => h0, fun _ => h1⟩
              · simp [Win32.emmcdl_is_absolute_host_path, charAt, ha0]
              · simp only [ne_eq, one_ne_zero, not_false_eq_true, true_iff]
                refine ⟨h0, h1, ?_⟩
                exact (hasAt_cons_succ a _ 1 _).2 ⟨haN,
                  (hasAt_cons_succ ':' _ 0 _).2 ⟨hcolon,
                    (hasAt_cons_zero _ t3 _).2 ⟨hbs, rfl⟩⟩⟩
              · intro i hi
                simp [strlen, haN, hcolon, hbs]
                simp at hi
                omega
            · refine ⟨0, [0, 1, 2], ?_, ?_, ?_, fun _ => h0, fun _ => h1⟩
              · simp [Win32.emmcdl_is_absolute_host_path, charAt, ha0, hc]
              · simp only [ne_eq, not_true_eq_false, false_iff, not_and]
                intro _ _ h2
                have := (hasAt_cons_zero c t3 _).1
                  ((hasAt_cons_succ ':' _ 0 _).1 ((hasAt_cons_succ a _ 1 _).1 h2).2).2
                exact hc this.2
              · intro i hi
                simp [strlen, haN, hcolon]
                simp at hi
                split <;> omega
        · refine ⟨0, [0, 1], ?_, ?_, ?_, fun _ => h0, by simp⟩
          · simp [Win32.emmcdl_is_absolute_host_path, charAt, ha0, hb]
          · simp only [ne_eq, not_true_eq_false, false_iff, not_and]
            intro _ h1
            have := (hasAt_cons_zero b t2 _).1 ((hasAt_cons_succ a _ 0 _).1 h1).2
            exact absurd this.2 hb
          · intro i hi
            simp [strlen, haN]
            simp at hi
            split <;> omega
    · have ha0 : isalpha a = 0 := by
        by_contra h
        exact ha ((isalpha_ne_zero_iff a).1 h)
      refine ⟨0, [0], ?_, ?_, by simp, ?_, by simp⟩
      · simp [Win32.emmcdl_is_absolute_host_path, charAt, ha0]
      · simp only [ne_eq, not_true_eq_false, false_iff, not_and]
        intro ⟨c, hc0, hcl⟩
        have := (hasAt_cons_zero a t c).1 hc0
        rw [this.2] at ha
        exact absurd hcl ha
      · simp

/-- C8: Windows `emmcdl_is_absolute_host_path` returns, and its value is
non-zero if and only if the path has at least three characters, the first a
letter (`A`-`Z` or `a`-`z`), the second `:` and the third `\`.  The Unix
predicate is non-zero if and only if the first character is `/`.  The four
characters `C : \ x` are absolute for the Windows predicate and not for the
Unix one; `/x` is absolute for the Unix predicate and not for the Windows
one. -/
theorem win_absolute_iff_drive_colon_backslash (path : CStr) :
    (∃ v reads, Win32.emmcdl_is_absolute_host_path path = Run.done (v, reads) ∧
      (v ≠ 0 ↔ 3 ≤ strlen path ∧ (∃ c, hasAt path 0 c ∧ isLetter c) ∧
        hasAt path 1 ':' ∧ hasAt path 2 '\\')) ∧
    (∃ v reads, Posix.emmcdl_is_absolute_host_path path = Run.done (v, reads) ∧
      (v ≠ 0 ↔ hasAt path 0 '/')) ∧
    Win32.emmcdl_is_absolute_host_path ['C', ':', '\\', 'x'] = Run.done (1, [0, 1, 2]) ∧
    Posix.emmcdl_is_absolute_host_path ['C', ':', '\\', 'x'] = Run.done (0, [0]) ∧
    Posix.emmcdl_is_absolute_host_path ['/', 'x'] = Run.done (1, [0]) ∧
    Win32.emmcdl_is_absolute_host_path ['/', 'x'] = Run.done (0, [0]) := by
  refine ⟨?_, ?_, by decide, by decide, by decide, by decide⟩
  · obtain ⟨v, reads, hrun, hiff, _⟩ := win_abs_run path
    refine ⟨v, reads, hrun, ?_⟩
    rw [hiff]
    constructor
    · intro h
      have := h.2.2.1
      exact ⟨by omega, h⟩
    · intro h
      exact h.2
  · cases path with
    | nil =>
      refine ⟨0, [0], by decide, ?_⟩
      simp [hasAt, strlen]
    | cons a t =>
      by_cases ha : a = '/'
      · subst ha
        refine ⟨1, [0], by simp [Posix.emmcdl_is_absolute_host_path, charAt], ?_⟩
        simp only [ne_eq, one_ne_zero, not_false_eq_true, true_iff]
        exact (hasAt_cons_zero _ t _).2 ⟨slash_ne_NUL, rfl⟩
      · refine ⟨0, [0], by simp [Posix.emmcdl_is_absolute_host_path, charAt, ha], ?_⟩
        simp only [ne_eq, not_true_eq_false, false_iff]
        intro h
        exact ha ((hasAt_cons_zero a t _).1 h).2

/-- C10: Windows `emmcdl_is_absolute_host_path` never reads past the
terminator: for every path, the empty one and those of length 1 and 2
included, the evaluation returns without a read outside the object, and every
index it reads is at most the index of the terminator.  Index 1 is read only
when index 0 holds a letter, index 2 only when index 1 holds `:`. -/
theorem win_absolute_reads_stay_within_terminator (path : CStr) :
    ∃ v reads, Win32.emmcdl_is_absolute_host_path path = Run.done (v, reads) ∧
      (∀ i, i ∈ reads → i ≤ strlen path) ∧
      (1 ∈ reads → ∃ c, hasAt path 0 c ∧ isLetter c) ∧
      (2 ∈ reads → hasAt path 1 ':') := by
  obtain ⟨v, reads, hrun, _, hle, h1, h2⟩ := win_abs_run path
  exact ⟨v, reads, hrun, hle, h1, h2⟩

/-! ## The variadic `unix_open` -/

/-- C9: in both halves `unix_open` evaluates `va_arg` if and only if
`(options & O_CREAT) != 0`.  With the bit clear the result does not depend on
the trailing arguments, absent ones included, nothing is read from them, and
every underlying call is `open(path, options)`: one call on Windows, `k + 1`
calls on Unix when the first `k` are interrupted.  With the bit set and a
mode supplied, `va_arg` is evaluated once, yielding that mode, and every
underlying call is `open(path, options, mode)`; with the bit set and no
trailing argument the evaluation is undefined. -/
theorem unix_open_reads_mode_iff_creat_bit (P : Consts) (w : World)
    (k fuel : Nat) (path : CStr) (options mode : Int) (va : Option Int)
    (hint : ∀ i, i < k → interrupted P (w.script (w.next + i)))
    (hend : ¬ interrupted P (w.script (w.next + k))) (hfuel : k < fuel) :
    (Int.land options P.O_CREAT = 0 →
      Posix.unix_open P fuel path options va w
        = Posix.unix_open P fuel path options none w ∧
      ReturnsAfter P w k (Event.open2 path options) (w.script (w.next + k)).rc []
        (Posix.unix_open P fuel path options va w) ∧
      Win32.unix_open P path options va w
        = Run.done ((w.script w.next).rc,
            { w with next := w.next + 1,
                     trace := w.trace ++ [Event.open2 path options],
                     errno := (w.script w.next).errno })) ∧
    (Int.land options P.O_CREAT ≠ 0 →
      (∃ w1, Posix.unix_open P fuel path options (some mode) w
          = Run.done ((w.script (w.next + k)).rc, w1) ∧
        w1.trace = w.trace ++ [Event.va_arg mode] ++
          List.replicate (k + 1) (Event.open3 path options mode)) ∧
      Win32.unix_open P path options (some mode) w
        = Run.done ((w.script w.next).rc,
            { w with next := w.next + 1,
                     trace := w.trace ++ [Event.va_arg mode] ++
                       [Event.open3 path options mode],
                     errno := (w.script w.next).errno }) ∧
      Posix.unix_open P fuel path options none w = Run.undef ∧
      Win32.unix_open P path options none w = Run.undef) := by
  constructor
  · intro hb
    refine ⟨?_, ?_, ?_⟩
    · simp [Posix.unix_open, hb]
    · have h := returnsAfter_plain P (Event.open2 path options) k fuel w hint hend hfuel
      simpa [Posix.unix_open, hb] using h
    · simp [Win32.unix_open, hb, sys, World.call]
  · intro hb
    refine ⟨?_, ?_, ?_, ?_⟩
    · have h := retry_run P (Event.open3 path options mode) k fuel
        { w with trace := w.trace ++ [Event.va_arg mode] } hint hend hfuel
      have hu : Posix.unix_open P fuel path options (some mode) w =
          TEMP_FAILURE_RETRY P (sys (Event.open3 path options mode)) fuel
            { w with trace := w.trace ++ [Event.va_arg mode] } := by
        simp only [Posix.unix_open, if_neg hb]
      rw [hu, h]
      exact ⟨_, rfl, rfl⟩
    · simp [Win32.unix_open, hb, sys, World.call]
    · simp [Posix.unix_open, hb]
    · simp [Win32.unix_open, hb]

/-- Witness of C9: with `O_CREAT` (64) set and mode 420 supplied, after two
interruptions, Unix `unix_open` reads the mode once and makes three calls
`open("f", 64, 420)`; with no trailing argument the evaluation is
undefined. -/
theorem unix_open_reads_mode_witness :
    (∃ w1, Posix.unix_open linux 3 ['f'] 64 (some 420) (World.start twiceInterrupted)
        = Run.done (((World.start twiceInterrupted).script
            ((World.start twiceInterrupted).next + 2)).rc, w1) ∧
      w1.trace = (World.start twiceInterrupted).trace ++ [Event.va_arg 420] ++
        List.replicate (2 + 1) (Event.open3 ['f'] 64 420)) ∧
    Posix.unix_open linux 3 ['f'] 64 none (World.start twiceInterrupted) = Run.undef :=
  ⟨((unix_open_reads_mode_iff_creat_bit linux (World.start twiceInterrupted) 2 3
      ['f'] 64 420 none (by decide) (by decide) (by decide)).2 (by decide)).1,
   ((unix_open_reads_mode_iff_creat_bit linux (World.start twiceInterrupted) 2 3
      ['f'] 64 420 none (by decide) (by decide) (by decide)).2 (by decide)).2.2.1⟩

end Sysdeps
